import Mathlib

/-!
# Verification of the batch job orchestration subsystem

Shallow embedding of the job store (`lib/jobManager.ts`), the generate
request handler (`app/api/generate/route.ts`, `POST`) and the batch
dispatcher (`processJobs` / `processJob` in the same file), together with
proofs of the spec's testable properties.

Conventions of the embedding:
* `randomUUID()` is modelled by threading the fresh identifier in as a
  parameter (`createJob`, `createBatch`) or by an identifier generator
  `idGen : Nat → String` (`POST`).
* `Date.now()` is modelled by an explicit `now : Nat` parameter.
* JavaScript `Map` is modelled as an association list with first-match
  lookup; `Map.set` replaces the first binding in place when the key is
  present and appends otherwise, matching the JS insertion-order
  semantics.
* JavaScript numbers coming from the request body are modelled as
  `Option ℚ`: `none` stands for a field that is absent (`undefined`) or
  parsed as `NaN` — in both cases every numeric comparison on it is
  false, which is exactly what the embedding's comparison helpers return.
* The async dispatcher is modelled as a small-step interpreter: the
  single-threaded event loop runs one synchronous segment at a time, and
  at each `await Promise.race(active)` point the external scheduler
  (modelled by a `List Nat` of choices) decides which in-flight provider
  call settles.  The provider itself is an oracle
  `String → Except String String` per job: `.ok url` for a resolved
  image, `.error msg` for a rejection — the `try/catch` in `processJob`
  is embedded by casing on this `Except`.
-/

namespace ImageGen

/-- `lib/types.ts`: `type JobStatus = 'pending' | 'generating' | 'complete' | 'error'`. -/
inductive JobStatus
  | pending
  | generating
  | complete
  | error
deriving DecidableEq, Repr

/-- `lib/types.ts`: `interface Job` (id, status, imageUrl?, error?, createdAt). -/
structure Job where
  id : String
  status : JobStatus
  imageUrl : Option String := none
  error : Option String := none
  createdAt : Nat
deriving DecidableEq, Repr

/-- `lib/types.ts`: `interface Batch` (id, jobIds, concurrency, createdAt).
`concurrency` is a JS number taken from the request body, so it is
`Option ℚ` (`none` = absent/NaN). -/
structure Batch where
  id : String
  jobIds : List String
  concurrency : Option ℚ := none
  createdAt : Nat
deriving DecidableEq, Repr

/-- A partial update as passed to `JobManager.updateJob` by the code:
the dispatcher only ever supplies the `status`, `imageUrl` and `error`
fields, a `none` field is absent from the JS object literal. -/
structure JobUpdate where
  status : Option JobStatus := none
  imageUrl : Option String := none
  error : Option String := none
deriving DecidableEq, Repr

/-- JS object spread `{ ...job, ...updates }`: every field present in
`updates` overrides the field of `job`, absent fields are kept. -/
def Job.merge (j : Job) (u : JobUpdate) : Job :=
  { j with
    status := u.status.getD j.status
    imageUrl := match u.imageUrl with
      | some v => some v
      | none => j.imageUrl
    error := match u.error with
      | some v => some v
      | none => j.error }

/-! ## Association-list model of a JS `Map` -/

/-- `Map.get(k)`: first binding of `k`, if any. -/
def mapGet (k : String) : List (String × α) → Option α
  | [] => none
  | (k', v) :: rest => if k' = k then some v else mapGet k rest

/-- `Map.set(k, v)`: replace the first binding of `k` in place, append
a fresh binding when `k` is absent. -/
def mapSet (k : String) (v : α) : List (String × α) → List (String × α)
  | [] => [(k, v)]
  | (k', v') :: rest => if k' = k then (k, v) :: rest else (k', v') :: mapSet k v rest

theorem mapGet_mapSet_self (k : String) (v : α) (l : List (String × α)) :
    mapGet k (mapSet k v l) = some v := by
  induction l with
  | nil => simp [mapGet, mapSet]
  | cons p rest ih =>
    obtain ⟨k', v'⟩ := p
    by_cases h : k' = k <;> simp [mapGet, mapSet, h, ih]

theorem mapGet_mapSet_ne (k k' : String) (hk : k' ≠ k) (v : α) (l : List (String × α)) :
    mapGet k' (mapSet k v l) = mapGet k' l := by
  have hk' : k ≠ k' := Ne.symm hk
  induction l with
  | nil => simp [mapGet, mapSet, hk']
  | cons p rest ih =>
    obtain ⟨k₀, v₀⟩ := p
    by_cases h : k₀ = k
    · subst h
      simp [mapGet, mapSet, hk']
    · simp only [mapSet, if_neg h, mapGet]
      by_cases h' : k₀ = k' <;> simp [h', ih]

/-- A key that appears in no binding looks up to `none`. -/
theorem mapGet_eq_none_of_not_mem (k : String) (l : List (String × α))
    (h : k ∉ l.map Prod.fst) : mapGet k l = none := by
  induction l with
  | nil => rfl
  | cons p rest ih =>
    obtain ⟨k₀, v₀⟩ := p
    simp only [List.map_cons, List.mem_cons, not_or] at h
    have hne : k₀ ≠ k := Ne.symm h.1
    simp [mapGet, hne, ih h.2]

/-- Lookup in a filtered association list, assuming the keys are
distinct (which every store reachable by the `JobManager` operations
satisfies): the binding survives exactly when it passes the filter. -/
theorem mapGet_filter (p : String × α → Bool) (k : String) (l : List (String × α))
    (hnd : (l.map Prod.fst).Nodup) :
    mapGet k (l.filter p) =
      match mapGet k l with
      | some v => if p (k, v) then some v else none
      | none => none := by
  induction l with
  | nil => simp [mapGet]
  | cons q rest ih =>
    obtain ⟨k₀, v₀⟩ := q
    simp only [List.map_cons, List.nodup_cons] at hnd
    by_cases h : k₀ = k
    · subst h
      have hrest : mapGet k₀ (rest.filter p) = none := by
        apply mapGet_eq_none_of_not_mem
        intro hm
        rcases List.mem_map.mp hm with ⟨q, hq, hqk⟩
        exact hnd.1 (List.mem_map.mpr ⟨q, (List.mem_filter.mp hq).1, hqk⟩)
      by_cases hp : p (k₀, v₀) <;>
        simp [List.filter_cons, mapGet, hp, hrest]
    · by_cases hp : p (k₀, v₀) <;>
        simp [List.filter_cons, mapGet, h, hp, ih hnd.2]

/-! ## The job store (`lib/jobManager.ts`, class `JobManager`) -/

/-- The two private maps of `class JobManager`. -/
structure JobManager where
  jobs : List (String × Job) := []
  batches : List (String × Batch) := []
deriving DecidableEq, Repr

namespace JobManager

/-- The freshly constructed manager (`new JobManager()`). -/
def empty : JobManager := {}

/-- `createJob()`: inserts `{ id, status: 'pending', createdAt: Date.now() }`
and returns the id.  `randomUUID()` and `Date.now()` are the `id` / `now`
parameters. -/
def createJob (m : JobManager) (id : String) (now : Nat) : String × JobManager :=
  let job : Job := { id := id, status := .pending, createdAt := now }
  (id, { m with jobs := mapSet id job m.jobs })

/-- `getJob(id)`: `this.jobs.get(id)`. -/
def getJob (m : JobManager) (id : String) : Option Job :=
  mapGet id m.jobs

/-- `updateJob(id, updates)`: merge-and-store when the job exists,
silently no-op otherwise. -/
def updateJob (m : JobManager) (id : String) (u : JobUpdate) : JobManager :=
  match mapGet id m.jobs with
  | none => m
  | some j => { m with jobs := mapSet id (j.merge u) m.jobs }

/-- `createBatch(jobIds, concurrency)`. -/
def createBatch (m : JobManager) (id : String) (jobIds : List String)
    (concurrency : Option ℚ) (now : Nat) : String × JobManager :=
  let batch : Batch :=
    { id := id, jobIds := jobIds, concurrency := concurrency, createdAt := now }
  (id, { m with batches := mapSet id batch m.batches })

/-- `getBatch(id)`. -/
def getBatch (m : JobManager) (id : String) : Option Batch :=
  mapGet id m.batches

/-- `cleanup(olderThanMs)`: `cutoff = Date.now() - olderThanMs` (plain JS
subtraction, hence computed in `ℤ`), then every job and every batch with
`createdAt < cutoff` is deleted.  Deleting entries while iterating a JS
`Map` is equivalent to filtering. -/
def cleanup (m : JobManager) (olderThanMs : Nat) (now : Nat) : JobManager :=
  let cutoff : ℤ := (now : ℤ) - (olderThanMs : ℤ)
  { jobs := m.jobs.filter fun p => !decide ((p.2.createdAt : ℤ) < cutoff)
    batches := m.batches.filter fun p => !decide ((p.2.createdAt : ℤ) < cutoff) }

/-- Stores reachable by the `JobManager` operations have distinct keys in
both maps. -/
def WF (m : JobManager) : Prop :=
  (m.jobs.map Prod.fst).Nodup ∧ (m.batches.map Prod.fst).Nodup

instance (m : JobManager) : Decidable m.WF := by
  unfold JobManager.WF
  infer_instance

theorem getJob_updateJob_of_mem (m : JobManager) (id : String) (u : JobUpdate)
    (j : Job) (h : m.getJob id = some j) :
    (m.updateJob id u).getJob id = some (j.merge u) := by
  unfold updateJob
  rw [show mapGet id m.jobs = some j from h]
  simp [getJob, mapGet_mapSet_self]

theorem updateJob_of_not_mem (m : JobManager) (id : String) (u : JobUpdate)
    (h : m.getJob id = none) : m.updateJob id u = m := by
  unfold updateJob
  rw [show mapGet id m.jobs = none from h]

theorem getJob_updateJob_ne (m : JobManager) (id id' : String) (u : JobUpdate)
    (h : id' ≠ id) : (m.updateJob id u).getJob id' = m.getJob id' := by
  unfold updateJob
  cases hm : mapGet id m.jobs with
  | none => rfl
  | some j => simp [getJob, mapGet_mapSet_ne id id' h]

theorem batches_updateJob (m : JobManager) (id : String) (u : JobUpdate) :
    (m.updateJob id u).batches = m.batches := by
  unfold updateJob
  cases mapGet id m.jobs <;> rfl

end JobManager

/-! ## JavaScript number / truthiness helpers

Request-body numbers are `Option ℚ`: `none` models `undefined` (absent
field) as well as `NaN` — every `<` / `>` comparison against such a
value is false in JS, and both behave identically in the `POST` handler
and in the dispatcher's `active.size < concurrency` guard. -/

/-- JS `!s` for a string-typed field: true for `undefined` and `''`. -/
def jsStrFalsy : Option String → Bool
  | none => true
  | some s => s.isEmpty

/-- JS `x < b` where `x` may be `undefined`/`NaN`. -/
def jsLtQ (x : Option ℚ) (b : ℚ) : Bool :=
  match x with
  | none => false
  | some a => decide (a < b)

/-- JS `x > b` where `x` may be `undefined`/`NaN`. -/
def jsGtQ (x : Option ℚ) (b : ℚ) : Bool :=
  match x with
  | none => false
  | some a => decide (b < a)

/-- JS `n < x` for a natural loop counter / set size against a possibly
`undefined`/`NaN` bound. -/
def jsNatLt (n : Nat) (x : Option ℚ) : Bool :=
  match x with
  | none => false
  | some q => decide ((n : ℚ) < q)

/-- Number of iterations of `for (let i = 0; i < x; i++)`: the least
`n` with `¬(n < x)`; `0` when `x` is `undefined`/`NaN` or nonpositive,
`⌈x⌉` otherwise. -/
def jsLoopCount : Option ℚ → Nat
  | none => 0
  | some q => ⌈q⌉₊

/-- Certification that `jsLoopCount` is the exact iteration count of the
JS loop: the counter `n` passes the guard `n < x` exactly when
`n < jsLoopCount x`. -/
theorem jsLoopCount_spec (x : Option ℚ) (n : Nat) :
    n < jsLoopCount x ↔ jsNatLt n x = true := by
  cases x with
  | none => simp [jsLoopCount, jsNatLt]
  | some q => simp [jsLoopCount, jsNatLt, Nat.lt_ceil]

/-! ## The generate request handler (`app/api/generate/route.ts`, `POST`) -/

/-- `lib/types.ts`: `interface GenerateRequest` as it arrives from
`request.json()` — every field may be absent at runtime. -/
structure GenReq where
  prompt : Option String := none
  imageCount : Option ℚ := none
  concurrency : Option ℚ := none
  temperature : Option ℚ := none
  image : Option String := none
  mode : Option String := none
deriving DecidableEq, Repr

/-- The JSON responses the `POST` handler produces: a
`GenerateResponse` body, or `{ error: msg }` with an HTTP status code. -/
inductive PostResult
  | ok (batchId : String) (jobIds : List String) (status : JobStatus)
  | err (msg : String) (code : Nat)
deriving DecidableEq, Repr

/-- The `POST` handler of `app/api/generate/route.ts`: validation, job
creation loop, batch creation, response.  `randomUUID()` is modelled by
`idGen` (the `i`-th generated UUID is `idGen i`; the batch id is the
next one), `Date.now()` by `now`.  The store returned is the store at
the time the response is produced; the asynchronous `processJobs` call
is modelled separately by `processJobs` below (for a rejected request it
is never invoked, and for an empty `jobIds` it performs no update). -/
def POST (req : GenReq) (idGen : Nat → String) (now : Nat) (m : JobManager) :
    PostResult × JobManager :=
  if jsStrFalsy req.prompt || decide ((req.prompt.getD "").length < 3) then
    (.err "Prompt must be at least 3 characters" 400, m)
  else if jsLtQ req.imageCount 1 || jsGtQ req.imageCount 10 then
    (.err "Image count must be between 1 and 10" 400, m)
  else if jsLtQ req.concurrency 1 || jsGtQ req.concurrency 5 then
    (.err "Concurrency must be between 1 and 5" 400, m)
  else
    let n := jsLoopCount req.imageCount
    let jobIds := (List.range n).map idGen
    let m1 := jobIds.foldl (fun acc jid => (acc.createJob jid now).2) m
    let bm := m1.createBatch (idGen n) jobIds req.concurrency now
    (.ok bm.1 jobIds .pending, bm.2)

/-! ## The batch dispatcher (`processJobs` / `processJob`) -/

/-- Outcome of one provider call (`geminiClient.generateImage`):
the promise resolves with a data-URI image or rejects with an error
message.  The `try/catch` of `processJob` is embedded by casing on
this value. -/
inductive ProviderResult
  | resolved (url : String)
  | rejected (msg : String)
deriving DecidableEq, Repr

/-- The store update `processJob` performs when it begins a provider
call: `updateJob(jobId, { status: 'generating' })`. -/
def genUpdate : JobUpdate := { status := some .generating }

/-- The store update `processJob` performs when its provider call
settles: `{ status: 'complete', imageUrl }` on resolution,
`{ status: 'error', error: message }` on rejection. -/
def doneUpdate : ProviderResult → JobUpdate
  | .resolved url => { status := some .complete, imageUrl := some url }
  | .rejected msg => { status := some .error, error := some msg }

/-- One observable atomic transition of the dispatcher. -/
inductive DEvent
  | started (j : String)
  | finished (j : String) (r : ProviderResult)
deriving DecidableEq, Repr

/-- The dispatcher's instantaneous state: the FIFO `queue` (`[...jobIds]`
after the shifts so far), the `active` set (insertion-ordered, as the
jobIds of the in-flight `processJob` promises), and the shared job
store. -/
structure DState where
  queue : List String
  active : List String
  store : JobManager
deriving DecidableEq, Repr

/-- The inner `while (active.size < concurrency && queue.length > 0)`
loop of `processJobs`: shift the head of the queue, run `processJob`'s
synchronous prefix (`updateJob(jobId, { status: 'generating' })` and the
start of the provider call), and add the promise to `active`.  Returns
the state after the loop together with the trace of intermediate states
(one per admitted job). -/
def startJobs (conc : Option ℚ) :
    List String → List String → JobManager → DState × List (DEvent × DState)
  | [], active, m => (⟨[], active, m⟩, [])
  | j :: rest, active, m =>
    if jsNatLt active.length conc then
      let m' := m.updateJob j genUpdate
      let s' : DState := ⟨rest, active ++ [j], m'⟩
      let r := startJobs conc rest (active ++ [j]) m'
      (r.1, (.started j, s') :: r.2)
    else (⟨j :: rest, active, m⟩, [])

/-- One settlement at the `await Promise.race(active)` point: the
scheduler choice `n` picks which in-flight provider call settles;
`processJob`'s continuation writes the terminal update and the
`.finally` handler removes the promise from `active` before the
dispatcher resumes.  Never invoked with an empty `active`. -/
def finishStep (provider : String → ProviderResult) (n : Nat)
    (queue active : List String) (m : JobManager) : DState × List (DEvent × DState) :=
  match active with
  | [] => (⟨queue, [], m⟩, [])
  | a :: rest =>
    let i := n % (a :: rest).length
    let j := (a :: rest).getD i a
    let m' := m.updateJob j (doneUpdate (provider j))
    let s' : DState := ⟨queue, (a :: rest).eraseIdx i, m'⟩
    (s', [(.finished j (provider j), s')])

/-- The outer `while (queue.length > 0 || active.size > 0)` loop.  One
fuel unit is one iteration; the JS loop is unbounded (and genuinely
diverges when `concurrency` compares as `false` forever, e.g.
`concurrency = 0` or `undefined` with a non-empty queue), so the
embedding runs on fuel and the theorems exhibit a sufficient fuel
bound. -/
def dispatchLoop (conc : Option ℚ) (provider : String → ProviderResult) :
    Nat → List Nat → DState → DState × List (DEvent × DState)
  | 0, _, s => (s, [])
  | fuel + 1, sched, s =>
    if s.queue.isEmpty && s.active.isEmpty then (s, [])
    else
      let r1 := startJobs conc s.queue s.active s.store
      if r1.1.active.isEmpty then
        let r2 := dispatchLoop conc provider fuel sched r1.1
        (r2.1, r1.2 ++ r2.2)
      else
        let r2 := finishStep provider (sched.headD 0) r1.1.queue r1.1.active r1.1.store
        let r3 := dispatchLoop conc provider fuel sched.tail r2.1
        (r3.1, r1.2 ++ r2.2 ++ r3.2)

/-- `processJobs(jobIds, request, concurrency)`: the dispatcher started
on the freshly created jobs — queue initialised to `[...jobIds]`, empty
active set.  `provider` is the per-job outcome of
`geminiClient.generateImage`, `sched` the scheduler's settlement
choices, `fuel` the iteration bound of the embedding. -/
def processJobs (jobIds : List String) (conc : Option ℚ)
    (provider : String → ProviderResult) (sched : List Nat) (fuel : Nat)
    (m : JobManager) : DState × List (DEvent × DState) :=
  dispatchLoop conc provider fuel sched ⟨jobIds, [], m⟩

/-! ## Dispatcher properties: step relation and invariant -/

/-- Status of a stored job, if present. -/
def statusOf (m : JobManager) (j : String) : Option JobStatus :=
  (m.getJob j).map Job.status

/-- What the store records for a job once its provider call has
settled: `complete` with the image on resolution, `error` with the
message on rejection. -/
def jobSettled (r : ProviderResult) (oj : Option Job) : Prop :=
  match r, oj with
  | .resolved url, some job => job.status = .complete ∧ job.imageUrl = some url
  | .rejected msg, some job => job.status = .error ∧ job.error = some msg
  | _, none => False

/-- Number of jobs of the batch currently in `generating` state. -/
def generatingCount (m : JobManager) (jobIds : List String) : Nat :=
  (jobIds.filter fun j => decide (statusOf m j = some .generating)).length

/-- The two atomic transitions of the dispatcher, as a relation: the
admission of the queue head (guarded by `active.size < concurrency`)
and the settlement of an in-flight provider call. -/
inductive AtomStep (conc : Option ℚ) (provider : String → ProviderResult) :
    DState → DState → Prop
  | start (j : String) (rest active : List String) (m : JobManager)
      (h : jsNatLt active.length conc = true) :
      AtomStep conc provider ⟨j :: rest, active, m⟩
        ⟨rest, active ++ [j], m.updateJob j genUpdate⟩
  | settle (queue active : List String) (m : JobManager) (i : Nat)
      (h : i < active.length) :
      AtomStep conc provider ⟨queue, active, m⟩
        ⟨queue, active.eraseIdx i,
          m.updateJob (active.get ⟨i, h⟩) (doneUpdate (provider (active.get ⟨i, h⟩)))⟩

/-- `StepChain R s l e`: the states `l` are reached from `s` by
consecutive `R`-steps and the last of them is `e` (or `e = s` when `l`
is empty). -/
inductive StepChain (R : DState → DState → Prop) : DState → List DState → DState → Prop
  | nil (s : DState) : StepChain R s [] s
  | cons (s s' e : DState) (l : List DState) :
      R s s' → StepChain R s' l e → StepChain R s (s' :: l) e

theorem StepChain.append {R : DState → DState → Prop} {s m e : DState}
    {l₁ l₂ : List DState} (h₁ : StepChain R s l₁ m) (h₂ : StepChain R m l₂ e) :
    StepChain R s (l₁ ++ l₂) e := by
  induction h₁ with
  | nil => simpa using h₂
  | cons s s' e' l hR _ ih => exact .cons _ _ _ _ hR (ih h₂)

/-- Every state along a chain (and the end state) satisfies any
property that holds at the start and is preserved by `R`. -/
theorem StepChain.all {R : DState → DState → Prop} {P : DState → Prop}
    {s e : DState} {l : List DState} (hc : StepChain R s l e) (hs : P s)
    (hstep : ∀ x y, R x y → P x → P y) : (∀ t ∈ l, P t) ∧ P e := by
  induction hc with
  | nil => exact ⟨by simp, hs⟩
  | cons s s' e' l hR htail ih =>
    have hP' : P s' := hstep _ _ hR hs
    have := ih hP'
    exact ⟨by simpa using ⟨hP', this.1⟩, this.2⟩

/-- A chain restarts from any of its intermediate states. -/
theorem StepChain.split {R : DState → DState → Prop} {s e x : DState}
    {l₁ l₂ : List DState} (hc : StepChain R s (l₁ ++ x :: l₂) e) :
    StepChain R x l₂ e := by
  induction l₁ generalizing s with
  | nil => cases hc with | cons _ _ _ _ _ htail => exact htail
  | cons y l ih => cases hc with | cons _ _ _ _ _ htail => exact ih htail

/-- Dispatcher invariant for a batch `jobIds` with integer concurrency
limit `K`: queue and active set are disjoint lists of batch jobs, the
active set respects the cap, queued jobs are `pending`, active jobs are
`generating`, and every other batch job has settled according to its
provider outcome. -/
structure Inv (K : Nat) (jobIds : List String) (provider : String → ProviderResult)
    (s : DState) : Prop where
  nodup : (s.queue ++ s.active).Nodup
  subset : ∀ j ∈ s.queue ++ s.active, j ∈ jobIds
  cap : s.active.length ≤ K
  qpending : ∀ j ∈ s.queue, statusOf s.store j = some .pending
  agen : ∀ j ∈ s.active, statusOf s.store j = some .generating
  settled : ∀ j ∈ jobIds, j ∉ s.queue → j ∉ s.active →
    jobSettled (provider j) (s.store.getJob j)

theorem get_not_mem_eraseIdx (l : List String) (hnd : l.Nodup) (i : Nat)
    (h : i < l.length) : l.get ⟨i, h⟩ ∉ l.eraseIdx i := by
  intro hmem
  rcases List.mem_eraseIdx_iff_get.mp hmem with ⟨i', hne, heq⟩
  exact hne (Fin.val_eq_of_eq ((List.Nodup.get_inj_iff hnd).mp heq))

theorem mem_eraseIdx_or_eq_get (l : List String) (i : Nat) (h : i < l.length)
    (x : String) (hx : x ∈ l) : x = l.get ⟨i, h⟩ ∨ x ∈ l.eraseIdx i := by
  rcases List.mem_iff_get.mp hx with ⟨i', hget⟩
  by_cases hvi : (i' : Nat) = i
  · left
    rw [← hget]
    congr 1
    exact Fin.ext hvi
  · right
    exact List.mem_eraseIdx_iff_get.mpr ⟨i', hvi, hget⟩

theorem statusOf_eq_some (m : JobManager) (j : String) (st : JobStatus)
    (h : statusOf m j = some st) : ∃ job, m.getJob j = some job ∧ job.status = st := by
  rcases Option.map_eq_some'.mp h with ⟨job, hj, hst⟩
  exact ⟨job, hj, hst⟩

/-- Every atomic dispatcher step preserves the invariant (for an
integer concurrency limit `K`). -/
theorem inv_step (K : Nat) (jobIds : List String) (provider : String → ProviderResult)
    {s s' : DState} (hstep : AtomStep (some (K : ℚ)) provider s s')
    (hinv : Inv K jobIds provider s) : Inv K jobIds provider s' := by
  cases hstep with
  | start j rest active m hguard =>
    obtain ⟨job, hjob, hjst⟩ :=
      statusOf_eq_some m j .pending (hinv.qpending j (List.mem_cons_self j rest))
    have hlt : active.length < K := by
      have := of_decide_eq_true (by simpa [jsNatLt] using hguard)
      exact_mod_cast this
    have hjnotin : j ∉ rest ++ active := by
      have := hinv.nodup
      rw [List.cons_append, List.nodup_cons] at this
      exact this.1
    have hperm : (rest ++ (active ++ [j])).Perm ((j :: rest) ++ active) := by
      rw [← List.append_assoc]
      exact List.perm_append_singleton j (rest ++ active)
    refine ⟨?_, ?_, ?_, ?_, ?_, ?_⟩
    · exact hperm.nodup_iff.mpr hinv.nodup
    · intro x hx
      exact hinv.subset x (hperm.mem_iff.mp hx)
    · simpa using Nat.succ_le_of_lt hlt
    · intro x hx
      have hxj : x ≠ j := by
        intro heq
        exact hjnotin (List.mem_append_left active (heq ▸ hx))
      rw [show (DState.mk rest (active ++ [j]) (m.updateJob j genUpdate)).store
          = m.updateJob j genUpdate from rfl]
      rw [statusOf, JobManager.getJob_updateJob_ne m j x genUpdate hxj]
      exact hinv.qpending x (List.mem_cons_of_mem j hx)
    · intro x hx
      rcases List.mem_append.mp hx with hxa | hxj
      · have hxj : x ≠ j := by
          intro heq
          exact hjnotin (List.mem_append_right rest (heq ▸ hxa))
        rw [statusOf, JobManager.getJob_updateJob_ne m j x genUpdate hxj]
        exact hinv.agen x hxa
      · have hxj : x = j := by simpa using hxj
        subst hxj
        rw [statusOf, JobManager.getJob_updateJob_of_mem m x genUpdate job hjob]
        simp [Job.merge, genUpdate]
    · intro x hxids hxq hxa
      have hxj : x ≠ j := by
        intro heq
        apply hxa
        rw [heq]
        exact List.mem_append_right active (List.mem_singleton_self j)
      have hxa' : x ∉ active := fun hm => hxa (List.mem_append_left [j] hm)
      have hxq' : x ∉ j :: rest := by
        intro hm
        rcases List.mem_cons.mp hm with h | h
        · exact hxj h
        · exact hxq h
      rw [show (DState.mk rest (active ++ [j]) (m.updateJob j genUpdate)).store
          = m.updateJob j genUpdate from rfl]
      rw [JobManager.getJob_updateJob_ne m j x genUpdate hxj]
      exact hinv.settled x hxids hxq' hxa'
  | settle queue active m i hi =>
    set j := active.get ⟨i, hi⟩ with hjdef
    have hjact : j ∈ active := List.get_mem active i hi
    obtain ⟨job, hjob, hjst⟩ := statusOf_eq_some m j .generating (hinv.agen j hjact)
    have hand : active.Nodup := ((List.nodup_append.mp hinv.nodup).2).1
    have hdisj : ∀ x ∈ queue, x ∉ active := by
      intro x hx
      exact fun hm => ((List.nodup_append.mp hinv.nodup).2).2 hx hm
    have hsub : List.Sublist (queue ++ active.eraseIdx i) (queue ++ active) :=
      List.Sublist.append_left (List.eraseIdx_sublist active i) queue
    refine ⟨?_, ?_, ?_, ?_, ?_, ?_⟩
    · exact hinv.nodup.sublist hsub
    · intro x hx
      exact hinv.subset x (hsub.subset hx)
    · calc (active.eraseIdx i).length ≤ active.length := (List.eraseIdx_sublist active i).length_le
        _ ≤ K := hinv.cap
    · intro x hx
      have hxj : x ≠ j := fun heq => hdisj x hx (heq ▸ hjact)
      rw [statusOf, JobManager.getJob_updateJob_ne m j x _ hxj]
      exact hinv.qpending x hx
    · intro x hx
      have hxact : x ∈ active := (List.eraseIdx_sublist active i).subset hx
      have hjer : j ∉ active.eraseIdx i := by
        rw [hjdef]
        exact get_not_mem_eraseIdx active hand i hi
      have hxj : x ≠ j := by
        intro heq
        rw [heq] at hx
        exact hjer hx
      rw [statusOf, JobManager.getJob_updateJob_ne m j x _ hxj]
      exact hinv.agen x hxact
    · intro x hxids hxq hxa
      by_cases hxj : x = j
      · rw [show (DState.mk queue (active.eraseIdx i)
            (m.updateJob j (doneUpdate (provider j)))).store
            = m.updateJob j (doneUpdate (provider j)) from rfl]
        rw [hxj, JobManager.getJob_updateJob_of_mem m j _ job hjob]
        cases hp : provider j <;> simp [jobSettled, Job.merge, doneUpdate]
      · have hxact : x ∉ active := by
          intro hm
          rcases mem_eraseIdx_or_eq_get active i hi x hm with h | h
          · exact hxj (by rw [h, ← hjdef])
          · exact hxa h
        rw [show (DState.mk queue (active.eraseIdx i)
            (m.updateJob j (doneUpdate (provider j)))).store
            = m.updateJob j (doneUpdate (provider j)) from rfl]
        rw [JobManager.getJob_updateJob_ne m j x _ hxj]
        exact hinv.settled x hxids hxq hxact

/-! ## Structural facts about the dispatcher loops -/

/-- The jobs marked `generating` by a trace, in admission order. -/
def startedJobs : List DEvent → List String
  | [] => []
  | .started j :: rest => j :: startedJobs rest
  | .finished _ _ :: rest => startedJobs rest

theorem startedJobs_append (l₁ l₂ : List DEvent) :
    startedJobs (l₁ ++ l₂) = startedJobs l₁ ++ startedJobs l₂ := by
  induction l₁ with
  | nil => rfl
  | cons e rest ih => cases e <;> simp [startedJobs, ih]

theorem startedJobs_map_started (l : List String) :
    startedJobs (l.map DEvent.started) = l := by
  induction l with
  | nil => rfl
  | cons j rest ih => simp [startedJobs, ih]

/-- Shape of the admission loop: it admits some prefix of the queue (of
length `n`), appending it to the active set in order. -/
theorem startJobs_shape (conc : Option ℚ) (q a : List String) (m : JobManager) :
    ∃ n, n ≤ q.length ∧
      (startJobs conc q a m).2.map Prod.fst = (q.take n).map DEvent.started ∧
      (startJobs conc q a m).1.queue = q.drop n ∧
      (startJobs conc q a m).1.active = a ++ q.take n := by
  induction q generalizing a m with
  | nil => exact ⟨0, by simp [startJobs]⟩
  | cons j rest ih =>
    by_cases hg : jsNatLt a.length conc = true
    · obtain ⟨n, hn, hev, hq, ha⟩ := ih (a ++ [j]) (m.updateJob j genUpdate)
      refine ⟨n + 1, by simpa using hn, ?_, ?_, ?_⟩
      · simp [startJobs, hg, hev]
      · simp [startJobs, hg, hq]
      · simp [startJobs, hg, ha]
    · exact ⟨0, by simp, by simp [startJobs, hg], by simp [startJobs, hg],
        by simp [startJobs, hg]⟩

/-- When the admission loop stops with a non-empty queue, the
concurrency guard is false at the final active set. -/
theorem startJobs_exit_guard (conc : Option ℚ) (q a : List String) (m : JobManager)
    (hne : (startJobs conc q a m).1.queue ≠ []) :
    jsNatLt (startJobs conc q a m).1.active.length conc = false := by
  induction q generalizing a m with
  | nil => simp [startJobs] at hne
  | cons j rest ih =>
    by_cases hg : jsNatLt a.length conc = true
    · have := ih (a ++ [j]) (m.updateJob j genUpdate)
      simp only [startJobs, hg, if_true] at hne ⊢
      exact this hne
    · simp only [startJobs, hg, if_false, Bool.if_false_right]
      simpa using hg

/-- With an integer concurrency limit `K ≥ 1`, the admission loop can
only leave `active` empty when there was nothing to do at all. -/
theorem startJobs_active_nil (K : Nat) (hK : 1 ≤ K) (q a : List String)
    (m : JobManager) (h : (startJobs (some (K : ℚ)) q a m).1.active = []) :
    (startJobs (some (K : ℚ)) q a m).1.queue = [] ∧ a = [] := by
  obtain ⟨n, hn, _, hq, ha⟩ := startJobs_shape (some (K : ℚ)) q a m
  rw [ha] at h
  have ha0 : a = [] := by
    cases a with
    | nil => rfl
    | cons x xs => simp at h
  refine ⟨?_, ha0⟩
  by_contra hne
  have hguard := startJobs_exit_guard (some (K : ℚ)) q a m hne
  rw [List.append_eq_nil] at h
  have hlen0 : (startJobs (some (K : ℚ)) q a m).1.active.length = 0 := by
    rw [ha, h.1, h.2]
    rfl
  rw [hlen0] at hguard
  have hnotlt : ¬(((0 : Nat) : ℚ) < (K : ℚ)) := by
    simpa [jsNatLt] using hguard
  have : ¬(0 < K) := fun hlt => hnotlt (by exact_mod_cast hlt)
  omega

theorem startJobs_chain (conc : Option ℚ) (provider : String → ProviderResult)
    (q a : List String) (m : JobManager) :
    StepChain (AtomStep conc provider) ⟨q, a, m⟩
      ((startJobs conc q a m).2.map Prod.snd) (startJobs conc q a m).1 := by
  induction q generalizing a m with
  | nil => exact .nil _
  | cons j rest ih =>
    by_cases hg : jsNatLt a.length conc = true
    · simp only [startJobs, hg, if_true, List.map_cons]
      exact .cons _ _ _ _ (AtomStep.start j rest a m hg)
        (ih (a ++ [j]) (m.updateJob j genUpdate))
    · simp only [startJobs, hg, if_false]
      exact .nil _

theorem finishStep_chain (conc : Option ℚ) (provider : String → ProviderResult)
    (n : Nat) (queue : List String) (a : String) (rest : List String)
    (m : JobManager) :
    StepChain (AtomStep conc provider) ⟨queue, a :: rest, m⟩
      ((finishStep provider n queue (a :: rest) m).2.map Prod.snd)
      (finishStep provider n queue (a :: rest) m).1 := by
  have hlen : n % (a :: rest).length < (a :: rest).length :=
    Nat.mod_lt n (by simp)
  have hgetD : (a :: rest).getD (n % (a :: rest).length) a
      = (a :: rest).get ⟨n % (a :: rest).length, hlen⟩ :=
    List.getD_eq_get (a :: rest) a hlen
  simp only [finishStep, hgetD, List.map_cons, List.map_nil]
  exact .cons _ _ _ _
    (AtomStep.settle queue (a :: rest) m (n % (a :: rest).length) hlen) (.nil _)

theorem finishStep_state (provider : String → ProviderResult) (n : Nat)
    (queue : List String) (a : String) (rest : List String) (m : JobManager) :
    (finishStep provider n queue (a :: rest) m).1.queue = queue ∧
    (finishStep provider n queue (a :: rest) m).1.active.length = rest.length ∧
    startedJobs ((finishStep provider n queue (a :: rest) m).2.map Prod.fst) = [] := by
  have hlen : n % (a :: rest).length < (a :: rest).length :=
    Nat.mod_lt n (by simp)
  refine ⟨rfl, ?_, rfl⟩
  show ((a :: rest).eraseIdx (n % (a :: rest).length)).length = rest.length
  rw [List.length_eraseIdx_of_lt hlen]
  simp

/-- Every state of the dispatcher run is reached from the initial one
by a chain of atomic steps, ending in the returned state. -/
theorem dispatchLoop_chain (conc : Option ℚ) (provider : String → ProviderResult)
    (fuel : Nat) (sched : List Nat) (s : DState) :
    StepChain (AtomStep conc provider) s
      ((dispatchLoop conc provider fuel sched s).2.map Prod.snd)
      (dispatchLoop conc provider fuel sched s).1 := by
  induction fuel generalizing sched s with
  | zero => exact .nil _
  | succ fuel ih =>
    by_cases hdone : (s.queue.isEmpty && s.active.isEmpty) = true
    · simp only [dispatchLoop]
      rw [if_pos hdone]
      exact .nil _
    · simp only [dispatchLoop]
      rw [if_neg hdone]
      by_cases hact : (startJobs conc s.queue s.active s.store).1.active.isEmpty = true
      · rw [if_pos hact]
        simp only [List.map_append]
        exact (startJobs_chain conc provider s.queue s.active s.store).append
          (ih sched (startJobs conc s.queue s.active s.store).1)
      · rw [if_neg hact]
        simp only [List.map_append]
        have h1 := startJobs_chain conc provider s.queue s.active s.store
        obtain ⟨b, brest, hb⟩ : ∃ b brest,
            (startJobs conc s.queue s.active s.store).1.active = b :: brest := by
          cases hx : (startJobs conc s.queue s.active s.store).1.active with
          | nil => rw [hx] at hact; simp at hact
          | cons b brest => exact ⟨b, brest, rfl⟩
        have h2 := finishStep_chain conc provider (sched.headD 0)
          (startJobs conc s.queue s.active s.store).1.queue b brest
          (startJobs conc s.queue s.active s.store).1.store
        rw [← hb] at h2
        have h2' : StepChain (AtomStep conc provider)
            (startJobs conc s.queue s.active s.store).1
            ((finishStep provider (sched.headD 0)
              (startJobs conc s.queue s.active s.store).1.queue
              (startJobs conc s.queue s.active s.store).1.active
              (startJobs conc s.queue s.active s.store).1.store).2.map Prod.snd)
            (finishStep provider (sched.headD 0)
              (startJobs conc s.queue s.active s.store).1.queue
              (startJobs conc s.queue s.active s.store).1.active
              (startJobs conc s.queue s.active s.store).1.store).1 := h2
        exact (h1.append h2').append
          (ih sched.tail _)

/-- The invariant holds at every intermediate state of a dispatcher run
and at its final state. -/
theorem dispatchLoop_inv (K : Nat) (jobIds : List String)
    (provider : String → ProviderResult) (fuel : Nat) (sched : List Nat)
    (s : DState) (hinv : Inv K jobIds provider s) :
    (∀ p ∈ (dispatchLoop (some (K : ℚ)) provider fuel sched s).2,
      Inv K jobIds provider p.2) ∧
    Inv K jobIds provider (dispatchLoop (some (K : ℚ)) provider fuel sched s).1 := by
  have hc := dispatchLoop_chain (some (K : ℚ)) provider fuel sched s
  have hall := hc.all hinv (fun x y hxy hx => inv_step K jobIds provider hxy hx)
  exact ⟨fun p hp => hall.1 p.2 (List.mem_map_of_mem Prod.snd hp), hall.2⟩

/-- Totality of the dispatcher for an integer concurrency limit
`K ≥ 1`: one iteration of the outer loop per fuel unit, and
`2·|queue| + |active|` iterations drain everything; moreover the jobs
admitted over the whole run are exactly the queue, in order. -/
theorem dispatchLoop_total (K : Nat) (hK : 1 ≤ K) (provider : String → ProviderResult)
    (fuel : Nat) (sched : List Nat) (s : DState)
    (hfuel : 2 * s.queue.length + s.active.length ≤ fuel) :
    (dispatchLoop (some (K : ℚ)) provider fuel sched s).1.queue = [] ∧
    (dispatchLoop (some (K : ℚ)) provider fuel sched s).1.active = [] ∧
    startedJobs ((dispatchLoop (some (K : ℚ)) provider fuel sched s).2.map Prod.fst)
      = s.queue := by
  induction fuel generalizing sched s with
  | zero =>
    have hq : s.queue = [] := List.length_eq_zero.mp (by omega)
    have ha : s.active = [] := List.length_eq_zero.mp (by omega)
    exact ⟨hq, ha, by simp [startedJobs, hq]⟩
  | succ fuel ih =>
    by_cases hdone : (s.queue.isEmpty && s.active.isEmpty) = true
    · rw [Bool.and_eq_true, List.isEmpty_iff, List.isEmpty_iff] at hdone
      simp only [dispatchLoop]
      rw [if_pos (by simp [hdone.1, hdone.2])]
      exact ⟨hdone.1, hdone.2, by simp [startedJobs, hdone.1]⟩
    · simp only [dispatchLoop]
      rw [if_neg hdone]
      obtain ⟨n, hn, hev, hq1, ha1⟩ :=
        startJobs_shape (some (K : ℚ)) s.queue s.active s.store
      have hlenq1 : (startJobs (some (K : ℚ)) s.queue s.active s.store).1.queue.length
          = s.queue.length - n := by rw [hq1, List.length_drop]
      have hlena1 : (startJobs (some (K : ℚ)) s.queue s.active s.store).1.active.length
          = s.active.length + n := by
        rw [ha1, List.length_append, List.length_take, Nat.min_eq_left hn]
      have htdq : s.queue.take n ++ s.queue.drop n = s.queue := List.take_append_drop n s.queue
      by_cases hact : (startJobs (some (K : ℚ)) s.queue s.active s.store).1.active.isEmpty = true
      · rw [if_pos hact]
        have hnil := startJobs_active_nil K hK s.queue s.active s.store
          (List.isEmpty_iff.mp hact)
        have hih := ih sched (startJobs (some (K : ℚ)) s.queue s.active s.store).1
          (by rw [hnil.1, List.isEmpty_iff.mp hact]; simp)
        refine ⟨hih.1, hih.2.1, ?_⟩
        have hdropnil : s.queue.drop n = [] := by rw [← hq1, hnil.1]
        have hlenle : s.queue.length ≤ n := by
          have := List.length_drop n s.queue
          rw [hdropnil] at this
          simp only [List.length_nil] at this
          omega
        have htq : s.queue.take n = s.queue := List.take_of_length_le hlenle
        simp only [List.map_append, startedJobs_append, hev,
          startedJobs_map_started, hih.2.2, hnil.1]
        rw [htq]
        simp
      · rw [if_neg hact]
        obtain ⟨b, brest, hb⟩ : ∃ b brest,
            (startJobs (some (K : ℚ)) s.queue s.active s.store).1.active = b :: brest := by
          cases hx : (startJobs (some (K : ℚ)) s.queue s.active s.store).1.active with
          | nil => rw [hx] at hact; simp at hact
          | cons b brest => exact ⟨b, brest, rfl⟩
        have hfs := finishStep_state provider (sched.headD 0)
          (startJobs (some (K : ℚ)) s.queue s.active s.store).1.queue b brest
          (startJobs (some (K : ℚ)) s.queue s.active s.store).1.store
        rw [← hb] at hfs
        have hihfuel : 2 * (finishStep provider (sched.headD 0)
            (startJobs (some (K : ℚ)) s.queue s.active s.store).1.queue
            (startJobs (some (K : ℚ)) s.queue s.active s.store).1.active
            (startJobs (some (K : ℚ)) s.queue s.active s.store).1.store).1.queue.length
            + (finishStep provider (sched.headD 0)
            (startJobs (some (K : ℚ)) s.queue s.active s.store).1.queue
            (startJobs (some (K : ℚ)) s.queue s.active s.store).1.active
            (startJobs (some (K : ℚ)) s.queue s.active s.store).1.store).1.active.length
            ≤ fuel := by
          rw [hfs.1, hfs.2.1]
          have hblen : (startJobs (some (K : ℚ)) s.queue s.active s.store).1.active.length
              = brest.length + 1 := by rw [hb]; simp
          omega
        have hih := ih sched.tail _ hihfuel
        refine ⟨hih.1, hih.2.1, ?_⟩
        rw [List.map_append, List.map_append, startedJobs_append, startedJobs_append,
          hev, startedJobs_map_started, hfs.2.2, hih.2.2, hfs.1, hq1]
        simp

/-- The invariant holds at the dispatcher's initial state: queue
initialised with the batch's (distinct) job ids, all of them `pending`
in the store, empty active set. -/
theorem inv_init (K : Nat) (jobIds : List String) (provider : String → ProviderResult)
    (m : JobManager) (hnd : jobIds.Nodup)
    (hpend : ∀ j ∈ jobIds, statusOf m j = some .pending) :
    Inv K jobIds provider ⟨jobIds, [], m⟩ := by
  refine ⟨by simpa using hnd, ?_, by simp, hpend, by simp, ?_⟩
  · intro j hj
    simpa using List.mem_append.mp hj
  · intro j hj hq _
    exact absurd hj hq

theorem jobSettled_status (r : ProviderResult) (oj : Option Job) (h : jobSettled r oj) :
    ∃ job, oj = some job ∧ (job.status = .complete ∨ job.status = .error) := by
  cases r with
  | resolved url =>
    cases oj with
    | none => exact absurd h (by simp [jobSettled])
    | some job => exact ⟨job, rfl, Or.inl h.1⟩
  | rejected msg =>
    cases oj with
    | none => exact absurd h (by simp [jobSettled])
    | some job => exact ⟨job, rfl, Or.inr h.1⟩

/-- In any state satisfying the invariant, the number of batch jobs in
`generating` state is bounded by the active set, hence by `K`. -/
theorem generatingCount_le (K : Nat) (jobIds : List String)
    (provider : String → ProviderResult) (s : DState) (hnd : jobIds.Nodup)
    (hinv : Inv K jobIds provider s) : generatingCount s.store jobIds ≤ K := by
  have hsub : ∀ j ∈ jobIds.filter (fun j => decide (statusOf s.store j = some .generating)),
      j ∈ s.active := by
    intro j hj
    rcases List.mem_filter.mp hj with ⟨hjid, hgenb⟩
    have hgen : statusOf s.store j = some .generating := of_decide_eq_true hgenb
    by_cases hq : j ∈ s.queue
    · rw [hinv.qpending j hq] at hgen
      simp at hgen
    · by_cases ha : j ∈ s.active
      · exact ha
      · rcases jobSettled_status _ _ (hinv.settled j hjid hq ha) with ⟨job, hjob, hst⟩
        rw [statusOf, hjob] at hgen
        have hjs : job.status = JobStatus.generating := by simpa using hgen
        rcases hst with h | h <;> rw [h] at hjs <;> exact absurd hjs (by simp)
  have hndf : (jobIds.filter
      (fun j => decide (statusOf s.store j = some .generating))).Nodup :=
    hnd.filter _
  calc (jobIds.filter (fun j => decide (statusOf s.store j = some .generating))).length
      = (jobIds.filter
          (fun j => decide (statusOf s.store j = some .generating))).toFinset.card :=
        (List.toFinset_card_of_nodup hndf).symm
    _ ≤ s.active.toFinset.card := by
        apply Finset.card_le_card
        intro x hx
        rw [List.mem_toFinset] at hx ⊢
        exact hsub x hx
    _ ≤ s.active.length := s.active.toFinset_card_le
    _ ≤ K := hinv.cap

/-- C1 — Concurrency cap: over any dispatcher run (any scheduling of
provider-call settlements, any per-job outcomes, any fuel), every
observable state of the run has at most `K` jobs of the batch in
`generating` state. -/
theorem concurrency_cap (K : Nat) (jobIds : List String)
    (provider : String → ProviderResult) (sched : List Nat) (fuel : Nat)
    (m : JobManager) (hnd : jobIds.Nodup)
    (hpend : ∀ j ∈ jobIds, statusOf m j = some .pending) :
    ∀ p ∈ (processJobs jobIds (some (K : ℚ)) provider sched fuel m).2,
      generatingCount p.2.store jobIds ≤ K := by
  intro p hp
  have hinv0 := inv_init K jobIds provider m hnd hpend
  have hinvp := (dispatchLoop_inv K jobIds provider fuel sched ⟨jobIds, [], m⟩ hinv0).1 p hp
  exact generatingCount_le K jobIds provider p.2 hnd hinvp

/-- C3 — Completion: with an integer concurrency limit `K ≥ 1`, every
provider call eventually settling (the `provider` oracle is total) and
enough loop iterations (`2·N` suffice), the dispatcher terminates with
an empty queue and empty active set, and every job of the batch has
reached `complete` or `error`. -/
theorem dispatch_completes (K : Nat) (jobIds : List String)
    (provider : String → ProviderResult) (sched : List Nat) (fuel : Nat)
    (m : JobManager) (hK : 1 ≤ K) (hnd : jobIds.Nodup)
    (hpend : ∀ j ∈ jobIds, statusOf m j = some .pending)
    (hfuel : 2 * jobIds.length ≤ fuel) :
    (processJobs jobIds (some (K : ℚ)) provider sched fuel m).1.queue = [] ∧
    (processJobs jobIds (some (K : ℚ)) provider sched fuel m).1.active = [] ∧
    ∀ j ∈ jobIds,
      statusOf (processJobs jobIds (some (K : ℚ)) provider sched fuel m).1.store j
          = some .complete ∨
      statusOf (processJobs jobIds (some (K : ℚ)) provider sched fuel m).1.store j
          = some .error := by
  simp only [processJobs]
  have htot := dispatchLoop_total K hK provider fuel sched ⟨jobIds, [], m⟩
    (by simpa using hfuel)
  have hinv0 := inv_init K jobIds provider m hnd hpend
  have hinvEnd := (dispatchLoop_inv K jobIds provider fuel sched ⟨jobIds, [], m⟩ hinv0).2
  refine ⟨htot.1, htot.2.1, ?_⟩
  intro j hj
  have hset := hinvEnd.settled j hj (by rw [htot.1]; simp) (by rw [htot.2.1]; simp)
  rcases jobSettled_status _ _ hset with ⟨job, hjob, hst⟩
  rcases hst with h | h
  · left
    rw [statusOf, hjob]
    simp [h]
  · right
    rw [statusOf, hjob]
    simp [h]

/-- C4 — Failure isolation: if the provider call of job `J` rejects
with message `msg`, the run records `status = 'error'` and that message
on `J` (the exception is absorbed by `processJob`'s `try/catch`,
embedded as the `rejected` case), while every sibling job still reaches
its own terminal state. -/
theorem failure_isolated (K : Nat) (jobIds : List String)
    (provider : String → ProviderResult) (sched : List Nat) (fuel : Nat)
    (m : JobManager) (hK : 1 ≤ K) (hnd : jobIds.Nodup)
    (hpend : ∀ j ∈ jobIds, statusOf m j = some .pending)
    (hfuel : 2 * jobIds.length ≤ fuel) (J msg : String) (hJ : J ∈ jobIds)
    (hrej : provider J = .rejected msg) :
    (∃ job, (processJobs jobIds (some (K : ℚ)) provider sched fuel m).1.store.getJob J
        = some job ∧ job.status = .error ∧ job.error = some msg) ∧
    ∀ j ∈ jobIds,
      statusOf (processJobs jobIds (some (K : ℚ)) provider sched fuel m).1.store j
          = some .complete ∨
      statusOf (processJobs jobIds (some (K : ℚ)) provider sched fuel m).1.store j
          = some .error := by
  have hcomp := dispatch_completes K jobIds provider sched fuel m hK hnd hpend hfuel
  refine ⟨?_, hcomp.2.2⟩
  simp only [processJobs]
  have htot := dispatchLoop_total K hK provider fuel sched ⟨jobIds, [], m⟩
    (by simpa using hfuel)
  have hinv0 := inv_init K jobIds provider m hnd hpend
  have hinvEnd := (dispatchLoop_inv K jobIds provider fuel sched ⟨jobIds, [], m⟩ hinv0).2
  have hset := hinvEnd.settled J hJ (by rw [htot.1]; simp) (by rw [htot.2.1]; simp)
  rw [hrej] at hset
  cases hg : (dispatchLoop (some (K : ℚ)) provider fuel sched
      ⟨jobIds, [], m⟩).1.store.getJob J with
  | none =>
    rw [hg] at hset
    exact absurd hset (by simp [jobSettled])
  | some job =>
    rw [hg] at hset
    exact ⟨job, rfl, hset.1, hset.2⟩

/-! ## Admission order and sequential processing (`concurrency = 1`) -/

/-- If the concurrency guard is already false, the admission loop does
nothing. -/
theorem startJobs_guard_false (conc : Option ℚ) (q a : List String) (m : JobManager)
    (hg : jsNatLt a.length conc = false) :
    startJobs conc q a m = (⟨q, a, m⟩, []) := by
  cases q with
  | nil => rfl
  | cons j rest => simp [startJobs, hg]

/-- One settlement when exactly one provider call is in flight. -/
theorem finishStep_singleton (provider : String → ProviderResult) (n : Nat)
    (queue : List String) (j : String) (m : JobManager) :
    finishStep provider n queue [j] m =
      (⟨queue, [], m.updateJob j (doneUpdate (provider j))⟩,
       [(.finished j (provider j),
         ⟨queue, [], m.updateJob j (doneUpdate (provider j))⟩)]) := by
  simp [finishStep, Nat.mod_one]

/-- The strictly sequential event trace: each job is admitted and
settled before the next one is touched. -/
def seqTrace (provider : String → ProviderResult) : List String → List DEvent
  | [] => []
  | j :: rest => .started j :: .finished j (provider j) :: seqTrace provider rest

/-- With `concurrency = 1` the dispatcher is strictly sequential: the
event trace is forced to alternate admission and settlement job by job
in `jobIds` order, whatever the scheduler does. -/
theorem dispatchLoop_seq (provider : String → ProviderResult) :
    ∀ (jobIds : List String) (sched : List Nat) (fuel : Nat) (m : JobManager),
    jobIds.length < fuel →
    (dispatchLoop (some ((1 : Nat) : ℚ)) provider fuel sched ⟨jobIds, [], m⟩).2.map Prod.fst
      = seqTrace provider jobIds := by
  intro jobIds
  induction jobIds with
  | nil =>
    intro sched fuel m hf
    cases fuel with
    | zero => omega
    | succ fuel =>
      simp only [dispatchLoop]
      rw [if_pos (by simp)]
      rfl
  | cons j rest ih =>
    intro sched fuel m hf
    cases fuel with
    | zero => omega
    | succ fuel =>
      have hguard0 : jsNatLt ([] : List String).length (some ((1 : Nat) : ℚ)) = true := by
        decide
      have hguard1 : jsNatLt 1 (some ((1 : Nat) : ℚ)) = false := by
        decide
      have hstart : startJobs (some ((1 : Nat) : ℚ)) (j :: rest) [] m
          = (⟨rest, [j], m.updateJob j genUpdate⟩,
             [(.started j, ⟨rest, [j], m.updateJob j genUpdate⟩)]) := by
        simp only [startJobs, hguard0, if_true]
        rw [show ([] : List String) ++ [j] = [j] from rfl,
          startJobs_guard_false _ _ _ _ (by simpa using hguard1)]
      simp only [dispatchLoop]
      rw [if_neg (by simp)]
      rw [hstart]
      rw [if_neg (by simp)]
      rw [finishStep_singleton]
      simp only [List.map_append, List.map_cons, List.map_nil]
      rw [ih sched.tail fuel (m.updateJob j genUpdate |>.updateJob j
        (doneUpdate (provider j))) (by simpa using Nat.lt_of_succ_lt_succ hf)]
      rfl

/-- C9 — Admission order: over a full dispatcher run the jobs are
marked `generating` exactly in `jobIds` order (never a later-listed job
before an earlier one), and with `concurrency = 1` the whole event
trace degenerates to strictly sequential processing: each job settles
before the next is admitted. -/
theorem admission_in_order (K : Nat) (jobIds : List String)
    (provider : String → ProviderResult) (sched : List Nat) (fuel : Nat)
    (m : JobManager) (hK : 1 ≤ K) (hfuel : 2 * jobIds.length < fuel) :
    startedJobs ((processJobs jobIds (some (K : ℚ)) provider sched fuel m).2.map Prod.fst)
        = jobIds ∧
    (K = 1 →
      (processJobs jobIds (some (K : ℚ)) provider sched fuel m).2.map Prod.fst
        = seqTrace provider jobIds) := by
  constructor
  · exact (dispatchLoop_total K hK provider fuel sched ⟨jobIds, [], m⟩
      (by simpa using Nat.le_of_lt hfuel)).2.2
  · intro hk1
    subst hk1
    exact dispatchLoop_seq provider jobIds sched fuel m (by omega)

/-! ## Terminal stability inside a dispatch run -/

/-- A dispatcher step never writes to a job whose stored status is
already terminal: admissions target `pending` queue heads, settlements
target `generating` active jobs. -/
theorem terminal_pres_step (K : Nat) (jobIds : List String)
    (provider : String → ProviderResult) {s s' : DState}
    (hstep : AtomStep (some (K : ℚ)) provider s s')
    (hinv : Inv K jobIds provider s) (x : String) (job : Job)
    (hx : s.store.getJob x = some job)
    (hterm : job.status = .complete ∨ job.status = .error) :
    s'.store.getJob x = some job := by
  cases hstep with
  | start j rest active m hg =>
    have hxj : x ≠ j := by
      intro heq
      subst heq
      have hp := hinv.qpending x (List.mem_cons_self x rest)
      rw [statusOf, hx] at hp
      have : job.status = JobStatus.pending := by simpa using hp
      rcases hterm with h | h <;> rw [h] at this <;> exact JobStatus.noConfusion this
    show (m.updateJob j genUpdate).getJob x = some job
    rw [JobManager.getJob_updateJob_ne m j x genUpdate hxj]
    exact hx
  | settle queue active m i hi =>
    have hxj : x ≠ active.get ⟨i, hi⟩ := by
      intro heq
      have hp := hinv.agen (active.get ⟨i, hi⟩) (List.get_mem active i hi)
      rw [← heq, statusOf, hx] at hp
      have : job.status = JobStatus.generating := by simpa using hp
      rcases hterm with h | h <;> rw [h] at this <;> exact JobStatus.noConfusion this
    show (m.updateJob (active.get ⟨i, hi⟩) _).getJob x = some job
    rw [JobManager.getJob_updateJob_ne m _ x _ hxj]
    exact hx

/-- C2 (amended) — Terminal stability within a dispatch run: in any
`processJobs` execution over distinct, initially-`pending` job ids,
once some observable state records a job with terminal status
(`complete` or `error`), every later state of the run — and the final
store — records the identical job (status, imageUrl, error and all).
The store operation `updateJob` itself does not enforce this (see the
counterexample): finality holds because the dispatcher never issues an
update against a terminal job. -/
theorem terminal_stable_in_run (K : Nat) (jobIds : List String)
    (provider : String → ProviderResult) (sched : List Nat) (fuel : Nat)
    (m : JobManager) (hnd : jobIds.Nodup)
    (hpend : ∀ j ∈ jobIds, statusOf m j = some .pending)
    (tr₁ tr₂ : List (DEvent × DState)) (p : DEvent × DState)
    (hsplit : (processJobs jobIds (some (K : ℚ)) provider sched fuel m).2
        = tr₁ ++ p :: tr₂)
    (x : String) (job : Job) (hx : p.2.store.getJob x = some job)
    (hterm : job.status = .complete ∨ job.status = .error) :
    (∀ q ∈ tr₂, q.2.store.getJob x = some job) ∧
    (processJobs jobIds (some (K : ℚ)) provider sched fuel m).1.store.getJob x
      = some job := by
  simp only [processJobs] at hsplit ⊢
  have hinv0 := inv_init K jobIds provider m hnd hpend
  have hchain := dispatchLoop_chain (some (K : ℚ)) provider fuel sched ⟨jobIds, [], m⟩
  rw [hsplit] at hchain
  rw [List.map_append, List.map_cons] at hchain
  have htail := hchain.split
  have hinvp : Inv K jobIds provider p.2 := by
    have := (dispatchLoop_inv K jobIds provider fuel sched ⟨jobIds, [], m⟩ hinv0).1
    rw [hsplit] at this
    exact this p (by simp)
  have hall := htail.all (P := fun t => Inv K jobIds provider t ∧
      t.store.getJob x = some job) ⟨hinvp, hx⟩
    (fun a b hab ⟨hia, hrec⟩ =>
      ⟨inv_step K jobIds provider hab hia,
       terminal_pres_step K jobIds provider hab hia x job hrec hterm⟩)
  refine ⟨?_, hall.2.2⟩
  intro q hq
  exact (hall.1 q.2 (List.mem_map_of_mem Prod.snd hq)).2

/-- C2 (counterexample to the claim as stated) — the store operation
`updateJob` merges unconditionally: a job whose status is the terminal
`complete` is mutated to `error` by a subsequent `updateJob` call. -/
theorem updateJob_mutates_terminal :
    ((((JobManager.empty.createJob "a" 0).2.updateJob "a"
        { status := some .complete, imageUrl := some "u" }).getJob "a").map Job.status
      = some .complete) ∧
    (((((JobManager.empty.createJob "a" 0).2.updateJob "a"
        { status := some .complete, imageUrl := some "u" }).updateJob "a"
        { status := some .error, error := some "m" }).getJob "a").map Job.status
      = some .error) := by
  decide

/-! ## Store claims: reclamation and partial updates -/

/-- Effect of `cleanup` on a single job lookup (for a store with
distinct keys, as every reachable store has). -/
theorem getJob_cleanup (m : JobManager) (hWF : m.WF) (maxAgeMs now : Nat)
    (id : String) :
    (m.cleanup maxAgeMs now).getJob id =
      match m.getJob id with
      | some job =>
          if (job.createdAt : ℤ) < (now : ℤ) - (maxAgeMs : ℤ) then none else some job
      | none => none := by
  show mapGet id (m.jobs.filter _) = _
  rw [mapGet_filter _ id m.jobs hWF.1]
  cases hg : m.getJob id with
  | none => rw [show mapGet id m.jobs = none from hg]
  | some job =>
    rw [show mapGet id m.jobs = some job from hg]
    by_cases hc : (job.createdAt : ℤ) < (now : ℤ) - (maxAgeMs : ℤ) <;>
      simp [hc]

/-- Effect of `cleanup` on a single batch lookup. -/
theorem getBatch_cleanup (m : JobManager) (hWF : m.WF) (maxAgeMs now : Nat)
    (id : String) :
    (m.cleanup maxAgeMs now).getBatch id =
      match m.getBatch id with
      | some batch =>
          if (batch.createdAt : ℤ) < (now : ℤ) - (maxAgeMs : ℤ) then none
          else some batch
      | none => none := by
  show mapGet id (m.batches.filter _) = _
  rw [mapGet_filter _ id m.batches hWF.2]
  cases hg : m.getBatch id with
  | none => rw [show mapGet id m.batches = none from hg]
  | some batch =>
    rw [show mapGet id m.batches = some batch from hg]
    by_cases hc : (batch.createdAt : ℤ) < (now : ℤ) - (maxAgeMs : ℤ) <;>
      simp [hc]

/-- C6 — Reclamation: `cleanup(maxAgeMs)` at time `now` deletes exactly
the jobs and batches strictly older than `now - maxAgeMs`: a deleted
identifier subsequently looks up to the not-found signal (`none`),
while an entry not older than the cutoff is still retrievable
unchanged. -/
theorem cleanup_reclaims (m : JobManager) (hWF : m.WF) (maxAgeMs now : Nat) :
    (∀ id job, m.getJob id = some job →
      (((job.createdAt : ℤ) < (now : ℤ) - (maxAgeMs : ℤ)) →
          (m.cleanup maxAgeMs now).getJob id = none) ∧
      (¬((job.createdAt : ℤ) < (now : ℤ) - (maxAgeMs : ℤ)) →
          (m.cleanup maxAgeMs now).getJob id = some job)) ∧
    (∀ id batch, m.getBatch id = some batch →
      (((batch.createdAt : ℤ) < (now : ℤ) - (maxAgeMs : ℤ)) →
          (m.cleanup maxAgeMs now).getBatch id = none) ∧
      (¬((batch.createdAt : ℤ) < (now : ℤ) - (maxAgeMs : ℤ)) →
          (m.cleanup maxAgeMs now).getBatch id = some batch)) := by
  constructor
  · intro id job hj
    rw [getJob_cleanup m hWF maxAgeMs now id, hj]
    constructor
    · intro hc
      simp [hc]
    · intro hc
      simp [hc]
  · intro id batch hb
    rw [getBatch_cleanup m hWF maxAgeMs now id, hb]
    constructor
    · intro hc
      simp [hc]
    · intro hc
      simp [hc]

/-- C7 (counterexample to the claim as stated) — a job created at
timestamp 1000 survives `cleanup(0)` invoked at the same timestamp
1000: the deletion test `createdAt < now - 0` is strict, so `getJob`
still returns the job rather than the not-found signal. -/
theorem reclaim_zero_same_instant_keeps_job :
    (((JobManager.empty.createJob "a" 1000).2.cleanup 0 1000).getJob "a")
      = some { id := "a", status := .pending, createdAt := 1000 } := by
  decide

/-- C7 (amended) — zero-retention reclamation deletes a job as soon as
`cleanup(0)` runs at any timestamp strictly later than the job's
`createdAt` (e.g. one millisecond after creation); at the exact
creation timestamp the strict `<` test keeps the job. -/
theorem reclaim_zero_after_creation (m : JobManager) (hWF : m.WF)
    (id : String) (job : Job) (hj : m.getJob id = some job) (now : Nat)
    (hlt : job.createdAt < now) : (m.cleanup 0 now).getJob id = none := by
  rw [getJob_cleanup m hWF 0 now id, hj]
  simp [hlt]

/-- C8 — `updateJob` on an absent identifier (unknown or reclaimed) is
a total no-op: the whole store — jobs and batches — is returned
unchanged (and, being a total function, the operation cannot throw).
On a present identifier it merges exactly the supplied fields into that
job, leaving every other job and all batches untouched. -/
theorem updateJob_noop_or_merge (m : JobManager) (id : String) (u : JobUpdate) :
    (m.getJob id = none → m.updateJob id u = m) ∧
    (∀ job, m.getJob id = some job →
      (m.updateJob id u).getJob id = some (job.merge u) ∧
      (∀ id2, id2 ≠ id → (m.updateJob id u).getJob id2 = m.getJob id2) ∧
      (m.updateJob id u).batches = m.batches) :=
  ⟨JobManager.updateJob_of_not_mem m id u,
   fun job hj =>
     ⟨JobManager.getJob_updateJob_of_mem m id u job hj,
      fun id2 h2 => JobManager.getJob_updateJob_ne m id id2 u h2,
      JobManager.batches_updateJob m id u⟩⟩

/-! ## Request handler claims -/

/-- C5 — Validation atomicity: a submit request whose prompt is missing
or shorter than 3 characters, or whose `imageCount` is a number outside
`[1, 10]`, or whose `concurrency` is a number outside `[1, 5]`, is
answered with `{ error: … }` and HTTP 400 (a 4xx status), and the store
is returned exactly as it was — no Job and no Batch is created. -/
theorem validation_rejects_atomically (req : GenReq) (idGen : Nat → String)
    (now : Nat) (m : JobManager)
    (hbad : (req.prompt = none ∨ ∃ s, req.prompt = some s ∧ s.length < 3) ∨
      (∃ q, req.imageCount = some q ∧ (q < 1 ∨ 10 < q)) ∨
      (∃ q, req.concurrency = some q ∧ (q < 1 ∨ 5 < q))) :
    (∃ msg, (POST req idGen now m).1 = .err msg 400) ∧
    (POST req idGen now m).2 = m := by
  by_cases h1 : (jsStrFalsy req.prompt || decide ((req.prompt.getD "").length < 3)) = true
  · exact ⟨⟨"Prompt must be at least 3 characters", by simp [POST, h1]⟩,
      by simp [POST, h1]⟩
  · by_cases h2 : (jsLtQ req.imageCount 1 || jsGtQ req.imageCount 10) = true
    · exact ⟨⟨"Image count must be between 1 and 10", by simp [POST, h1, h2]⟩,
        by simp [POST, h1, h2]⟩
    · by_cases h3 : (jsLtQ req.concurrency 1 || jsGtQ req.concurrency 5) = true
      · exact ⟨⟨"Concurrency must be between 1 and 5", by simp [POST, h1, h2, h3]⟩,
          by simp [POST, h1, h2, h3]⟩
      · exfalso
        rcases hbad with hp | hic | hcc
        · apply h1
          rcases hp with hnone | ⟨s, hs, hlen⟩
          · simp [jsStrFalsy, hnone]
          · simp [hs, hlen]
        · apply h2
          rcases hic with ⟨q, hq, hout⟩
          rcases hout with h | h <;> simp [jsLtQ, jsGtQ, hq, h]
        · apply h3
          rcases hcc with ⟨q, hq, hout⟩
          rcases hout with h | h <;> simp [jsLtQ, jsGtQ, hq, h]

/-- C10 — Missing (or `NaN`) `imageCount` bypasses validation: both
range comparisons are false on `undefined`/`NaN`, so a request with
valid prompt and concurrency but no `imageCount` is accepted; the job
creation loop runs zero times, no job is added to the store, and the
handler returns a success response with an empty `jobIds` array instead
of a 4xx validation error. -/
theorem missing_imageCount_bypasses_validation (req : GenReq) (idGen : Nat → String)
    (now : Nat) (m : JobManager) (hic : req.imageCount = none)
    (hprompt : (jsStrFalsy req.prompt || decide ((req.prompt.getD "").length < 3)) = false)
    (hconc : (jsLtQ req.concurrency 1 || jsGtQ req.concurrency 5) = false) :
    jsLtQ req.imageCount 1 = false ∧
    jsGtQ req.imageCount 10 = false ∧
    (POST req idGen now m).1 = .ok (idGen 0) [] .pending ∧
    (POST req idGen now m).2.jobs = m.jobs := by
  have hltn : jsLtQ (none : Option ℚ) 1 = false := by simp [jsLtQ]
  have hgtn : jsGtQ (none : Option ℚ) 10 = false := by simp [jsGtQ]
  refine ⟨by rw [hic]; exact hltn, by rw [hic]; exact hgtn, ?_, ?_⟩ <;>
    simp [POST, hprompt, hconc, hltn, hgtn, hic, jsLoopCount,
      JobManager.createBatch]

/-! ## Concrete witnesses -/

/-- Three freshly created (pending) jobs, as `POST` creates them. -/
def sampleStore : JobManager :=
  (((JobManager.empty.createJob "a" 0).2.createJob "b" 0).2.createJob "c" 0).2

/-- A provider oracle where job `"b"` rejects and the others resolve. -/
def sampleProvider : String → ProviderResult :=
  fun j => if j = "b" then .rejected "quota exceeded" else .resolved "data:image/png;x"

theorem concurrency_cap_witness :
    (["a", "b", "c"] : List String).Nodup ∧
    ∀ p ∈ (processJobs ["a", "b", "c"] (some ((2 : Nat) : ℚ)) sampleProvider
        [0, 0, 0] 7 sampleStore).2,
      generatingCount p.2.store ["a", "b", "c"] ≤ 2 :=
  ⟨by decide,
   concurrency_cap 2 ["a", "b", "c"] sampleProvider [0, 0, 0] 7 sampleStore
     (by decide) (by decide)⟩

theorem dispatch_completes_witness :
    (processJobs ["a", "b", "c"] (some ((2 : Nat) : ℚ)) sampleProvider
        [0, 1] 7 sampleStore).1.queue = [] ∧
    (processJobs ["a", "b", "c"] (some ((2 : Nat) : ℚ)) sampleProvider
        [0, 1] 7 sampleStore).1.active = [] ∧
    ∀ j ∈ (["a", "b", "c"] : List String),
      statusOf (processJobs ["a", "b", "c"] (some ((2 : Nat) : ℚ)) sampleProvider
          [0, 1] 7 sampleStore).1.store j = some .complete ∨
      statusOf (processJobs ["a", "b", "c"] (some ((2 : Nat) : ℚ)) sampleProvider
          [0, 1] 7 sampleStore).1.store j = some .error :=
  dispatch_completes 2 ["a", "b", "c"] sampleProvider [0, 1] 7 sampleStore
    (by decide) (by decide) (by decide) (by decide)

theorem failure_isolated_witness :
    (∃ job, (processJobs ["a", "b", "c"] (some ((2 : Nat) : ℚ)) sampleProvider
        [0] 7 sampleStore).1.store.getJob "b"
        = some job ∧ job.status = .error ∧ job.error = some "quota exceeded") ∧
    ∀ j ∈ (["a", "b", "c"] : List String),
      statusOf (processJobs ["a", "b", "c"] (some ((2 : Nat) : ℚ)) sampleProvider
          [0] 7 sampleStore).1.store j = some .complete ∨
      statusOf (processJobs ["a", "b", "c"] (some ((2 : Nat) : ℚ)) sampleProvider
          [0] 7 sampleStore).1.store j = some .error :=
  failure_isolated 2 ["a", "b", "c"] sampleProvider [0] 7 sampleStore
    (by decide) (by decide) (by decide) (by decide) "b" "quota exceeded"
    (by decide) (by decide)

theorem admission_in_order_witness :
    startedJobs ((processJobs ["a", "b"] (some ((1 : Nat) : ℚ)) sampleProvider
        [] 5 sampleStore).2.map Prod.fst) = ["a", "b"] ∧
    ((1 : Nat) = 1 →
      (processJobs ["a", "b"] (some ((1 : Nat) : ℚ)) sampleProvider
          [] 5 sampleStore).2.map Prod.fst = seqTrace sampleProvider ["a", "b"]) :=
  admission_in_order 1 ["a", "b"] sampleProvider [] 5 sampleStore
    (by decide) (by decide)

/-- The single-job store and the two intermediate dispatcher states of
the run used in the terminal-stability witness. -/
def wStore : JobManager := (JobManager.empty.createJob "a" 0).2

def wState1 : DState := ⟨[], ["a"], wStore.updateJob "a" genUpdate⟩

def wState2 : DState :=
  ⟨[], [], (wStore.updateJob "a" genUpdate).updateJob "a"
    (doneUpdate (.resolved "u"))⟩

def wJob : Job := { id := "a", status := .complete, imageUrl := some "u", createdAt := 0 }

theorem terminal_stable_in_run_witness :
    (∀ q ∈ ([] : List (DEvent × DState)), q.2.store.getJob "a" = some wJob) ∧
    (processJobs ["a"] (some ((1 : Nat) : ℚ)) (fun _ => .resolved "u")
        [] 3 wStore).1.store.getJob "a" = some wJob :=
  terminal_stable_in_run 1 ["a"] (fun _ => .resolved "u") [] 3 wStore
    (by decide) (by decide) [(.started "a", wState1)] []
    (.finished "a" (.resolved "u"), wState2) (by decide) "a" wJob
    (by decide) (by decide)

theorem cleanup_reclaims_witness :
    ((((JobManager.empty.createJob "old" 100).2.createJob "new" 900).2.cleanup
        500 1000).getJob "old" = none) ∧
    ((((JobManager.empty.createJob "old" 100).2.createJob "new" 900).2.cleanup
        500 1000).getJob "new"
      = some { id := "new", status := .pending, createdAt := 900 }) := by
  have h := cleanup_reclaims
    (((JobManager.empty.createJob "old" 100).2.createJob "new" 900).2)
    (by decide) 500 1000
  exact ⟨(h.1 "old" { id := "old", status := .pending, createdAt := 100 }
      (by decide)).1 (by decide),
    (h.1 "new" { id := "new", status := .pending, createdAt := 900 }
      (by decide)).2 (by decide)⟩

theorem reclaim_zero_after_creation_witness :
    (((JobManager.empty.createJob "a" 1000).2.cleanup 0 1001).getJob "a") = none :=
  reclaim_zero_after_creation (JobManager.empty.createJob "a" 1000).2 (by decide)
    "a" { id := "a", status := .pending, createdAt := 1000 } (by decide) 1001
    (by decide)

theorem updateJob_noop_or_merge_witness :
    ((JobManager.empty.createJob "a" 0).2.updateJob "zz"
        { status := some .complete } = (JobManager.empty.createJob "a" 0).2) ∧
    (((JobManager.empty.createJob "a" 0).2.updateJob "a"
        { status := some .generating }).getJob "a"
      = some ({ id := "a", status := .pending, createdAt := 0 : Job }.merge
          { status := some .generating })) := by
  constructor
  · exact (updateJob_noop_or_merge (JobManager.empty.createJob "a" 0).2 "zz"
      { status := some .complete }).1 (by decide)
  · exact ((updateJob_noop_or_merge (JobManager.empty.createJob "a" 0).2 "a"
      { status := some .generating }).2
      { id := "a", status := .pending, createdAt := 0 } (by decide)).1

theorem validation_rejects_atomically_witness :
    (∃ msg, (POST { prompt := some "hi", imageCount := some 3, concurrency := some 2 }
        (fun i => toString i) 0 JobManager.empty).1 = .err msg 400) ∧
    (POST { prompt := some "hi", imageCount := some 3, concurrency := some 2 }
        (fun i => toString i) 0 JobManager.empty).2 = JobManager.empty :=
  validation_rejects_atomically
    { prompt := some "hi", imageCount := some 3, concurrency := some 2 }
    (fun i => toString i) 0 JobManager.empty
    (Or.inl (Or.inr ⟨"hi", rfl, by decide⟩))

theorem missing_imageCount_bypasses_validation_witness :
    jsLtQ (GenReq.mk (some "hello") none (some 2) none none none).imageCount 1
      = false ∧
    jsGtQ (GenReq.mk (some "hello") none (some 2) none none none).imageCount 10
      = false ∧
    (POST (GenReq.mk (some "hello") none (some 2) none none none)
        (fun i => toString i) 0 JobManager.empty).1
      = .ok (toString 0) [] .pending ∧
    (POST (GenReq.mk (some "hello") none (some 2) none none none)
        (fun i => toString i) 0 JobManager.empty).2.jobs = JobManager.empty.jobs :=
  missing_imageCount_bypasses_validation
    (GenReq.mk (some "hello") none (some 2) none none none)
    (fun i => toString i) 0 JobManager.empty rfl (by decide) (by decide)

end ImageGen
